import Mathlib

/-
Verification of the incremental-build core of SaltCBuild.

Shallow embedding of src/pb/BuildElement.py and the invocation sequencing of
src/pb/Builder.py (function build).  Conventions of the embedding:

* Paths are strings; digests are strings.  The md5 hexdigest function is an
  arbitrary parameter of type String → Digest, since none of the verified
  properties depend on the concrete digest function.
* The file system is a function from paths to a FileView: a path may denote
  no file (Path.is_file() returns False), an existing file with some byte
  content (modelled as a string), or a file whose read raises OSError.
* Python dicts holding digests become functions String → Option Digest;
  dict assignment becomes a pointwise update.
* collections.deque becomes a list whose head is the left end, so
  appendleft is cons and pop takes the last element; execute_build_queue is
  therefore defined through a helper consuming the reversed list.
* Exceptions become Option/error fields: update_build_queue returns none
  when an OSError propagates out of file hashing, and execute_build_queue
  records in its result either a command failure (CommandFailException,
  carrying the command text) or an OSError from re-hashing.
* subprocess.run is an arbitrary Runner parameter: given the command text
  and the current file system it either fails to launch (OSError) or runs,
  producing a possibly modified file system and an exit status.
* The result field commands_run records, in order, the command text of every
  subprocess.run call the executor performed (instrumentation only; it does
  not influence the computation).
* Function build of Builder.py is embedded as invoke, restricted to the
  incremental-build core: load the persisted baseline (an absent database
  reads as an empty store), resolve, execute, and persist the new snapshot
  only when resolution and the whole execution succeeded.  The C-specific
  configuration, depfile parsing, directory creation and the clang
  compilation database are outside the core and are not modelled.
-/

namespace SaltCBuild

abbrev Digest := String

/-- View of one path in the file system: no file, a file with given
content, or a file whose read fails with OSError. -/
inductive FileView : Type where
  | absent
  | file (content : String)
  | ioError
deriving DecidableEq

abbrev FS := String → FileView

/-- A fingerprint table (a Python dict from Path to digest string). -/
abbrev Store := String → Option Digest

/-- Dict assignment: set the entry at key k to v. -/
def Store.update (m : Store) (k : String) (v : Digest) : Store :=
  fun p => if p = k then some v else m p

/-- Class Hashes of BuildElement.py: file and command digest tables. -/
structure Hashes : Type where
  file_hashes : Store
  command_hashes : Store

/-- A freshly constructed Hashes(): both tables empty. -/
def Hashes.empty : Hashes := ⟨fun _ => none, fun _ => none⟩

/-- Class BuildElement of BuildElement.py: a path, a build command and the
list of dependency elements. -/
inductive BuildElement : Type where
  | mk (path : String) (build_command : String) (dependencies : List BuildElement)

def BuildElement.path : BuildElement → String
  | .mk p _ _ => p

def BuildElement.build_command : BuildElement → String
  | .mk _ c _ => c

def BuildElement.dependencies : BuildElement → List BuildElement
  | .mk _ _ deps => deps

mutual

def beqBE : BuildElement → BuildElement → Bool
  | .mk p c deps, .mk p' c' deps' => p == p' && (c == c' && beqBEList deps deps')

def beqBEList : List BuildElement → List BuildElement → Bool
  | [], [] => true
  | d :: r, d' :: r' => beqBE d d' && beqBEList r r'
  | _, _ => false

end

mutual

theorem beqBE_iff (a b : BuildElement) : beqBE a b = true ↔ a = b := by
  match a, b with
  | .mk p c deps, .mk p' c' deps' =>
    rw [beqBE]
    simp only [Bool.and_eq_true, beq_iff_eq, BuildElement.mk.injEq]
    constructor
    · rintro ⟨h1, h2, h3⟩
      exact ⟨h1, h2, (beqBEList_iff deps deps').mp h3⟩
    · rintro ⟨h1, h2, h3⟩
      exact ⟨h1, h2, (beqBEList_iff deps deps').mpr h3⟩

theorem beqBEList_iff (l l' : List BuildElement) : beqBEList l l' = true ↔ l = l' := by
  match l, l' with
  | [], [] => simp [beqBEList]
  | [], _ :: _ => simp [beqBEList]
  | _ :: _, [] => simp [beqBEList]
  | d :: r, d' :: r' =>
    rw [beqBEList]
    simp only [Bool.and_eq_true, List.cons.injEq]
    constructor
    · rintro ⟨h1, h2⟩
      exact ⟨(beqBE_iff d d').mp h1, (beqBEList_iff r r').mp h2⟩
    · rintro ⟨h1, h2⟩
      exact ⟨(beqBE_iff d d').mpr h1, (beqBEList_iff r r').mpr h2⟩

end

instance : DecidableEq BuildElement := fun a b =>
  decidable_of_iff (beqBE a b = true) (beqBE_iff a b)

/-- Function get_file_hash: digest of the file at the path; a path that is
not a file hashes as the empty byte string; a failing read is none
(OSError). -/
def get_file_hash (hash : String → Digest) (fs : FS) (path : String) : Option Digest :=
  match fs path with
  | .absent => some (hash "")
  | .file content => some (hash content)
  | .ioError => none

/-- Function get_command_hash: digest of the command text. -/
def get_command_hash (hash : String → Digest) (command : String) : Digest :=
  hash command

/-- Function command_hash_changed: record the current command digest into
hashes_new and report whether it differs from the baseline entry (an absent
entry counts as changed). -/
def command_hash_changed (hash : String → Digest) (e : BuildElement)
    (hashes : Hashes) (hashes_new : Hashes) : Bool × Hashes :=
  let current_hash := get_command_hash hash e.build_command
  let hn : Hashes :=
    { hashes_new with
      command_hashes := hashes_new.command_hashes.update e.path current_hash }
  match hashes.command_hashes e.path with
  | none => (true, hn)
  | some old => (if current_hash = old then false else true, hn)

/-- Function file_hash_changed: record the current file digest into
hashes_new and report whether it differs from the baseline entry (an absent
entry counts as changed); none when hashing raises OSError. -/
def file_hash_changed (hash : String → Digest) (fs : FS) (e : BuildElement)
    (hashes : Hashes) (hashes_new : Hashes) : Option (Bool × Hashes) :=
  match get_file_hash hash fs e.path with
  | none => none
  | some current_hash =>
    let hn : Hashes :=
      { hashes_new with
        file_hashes := hashes_new.file_hashes.update e.path current_hash }
    some (match hashes.file_hashes e.path with
      | none => true
      | some old => if current_hash = old then false else true, hn)

mutual

/-- Function update_build_queue: depth-first post-order traversal.  Returns
the staleness flag together with the updated queue (head = left end of the
deque) and the updated new snapshot; none when file hashing raises. -/
def update_build_queue (hash : String → Digest) (fs : FS) (e : BuildElement)
    (hashes : Hashes) (build_queue : List BuildElement) (hashes_new : Hashes) :
    Option (Bool × List BuildElement × Hashes) :=
  match e with
  | .mk p c deps =>
    match update_deps hash fs deps hashes build_queue hashes_new with
    | none => none
    | some (dependencies_should_build, q1, hn1) =>
      match command_hash_changed hash (.mk p c deps) hashes hn1 with
      | (cchanged, hn2) =>
        match file_hash_changed hash fs (.mk p c deps) hashes hn2 with
        | none => none
        | some (fchanged, hn3) =>
          let should_build := fchanged || (cchanged || dependencies_should_build)
          if should_build then some (true, .mk p c deps :: q1, hn3)
          else some (false, q1, hn3)

/-- The dependency loop of update_build_queue: fold over the children,
or-ing the staleness flags, with no short-circuiting. -/
def update_deps (hash : String → Digest) (fs : FS) (deps : List BuildElement)
    (hashes : Hashes) (build_queue : List BuildElement) (hashes_new : Hashes) :
    Option (Bool × List BuildElement × Hashes) :=
  match deps with
  | [] => some (false, build_queue, hashes_new)
  | d :: rest =>
    match update_build_queue hash fs d hashes build_queue hashes_new with
    | none => none
    | some (b1, q1, hn1) =>
      match update_deps hash fs rest hashes q1 hn1 with
      | none => none
      | some (b2, q2, hn2) => some (b1 || b2, q2, hn2)

end

mutual

/-- The staleness flag of update_build_queue in isolation: the flag depends
only on the element, the baseline and the file system, not on the queue or
the snapshot being accumulated. -/
def stale (hash : String → Digest) (fs : FS) (e : BuildElement)
    (hashes : Hashes) : Option Bool :=
  match e with
  | .mk p c deps =>
    match staleList hash fs deps hashes with
    | none => none
    | some dependencies_should_build =>
      match get_file_hash hash fs p with
      | none => none
      | some current =>
        some ((!(hashes.file_hashes p == some current))
          || ((!(hashes.command_hashes p == some (get_command_hash hash c)))
            || dependencies_should_build))

def staleList (hash : String → Digest) (fs : FS) (deps : List BuildElement)
    (hashes : Hashes) : Option Bool :=
  match deps with
  | [] => some false
  | d :: rest =>
    match stale hash fs d hashes with
    | none => none
    | some b1 =>
      match staleList hash fs rest hashes with
      | none => none
      | some b2 => some (b1 || b2)

end

mutual

/-- All nodes of a dependency tree, the root included. -/
def nodes : BuildElement → List BuildElement
  | .mk p c deps => .mk p c deps :: nodesList deps

def nodesList : List BuildElement → List BuildElement
  | [] => []
  | d :: rest => nodes d ++ nodesList rest

end

/-- The transitive dependencies of a node (the node itself excluded). -/
def descendants : BuildElement → List BuildElement
  | .mk _ _ deps => nodesList deps

/-- Outcome of one subprocess.run call: OSError at launch, or a completed
process with the file system it left behind and whether the exit status was
zero. -/
inductive RunOutcome : Type where
  | launchError
  | ran (fs' : FS) (exitZero : Bool)

/-- The process-execution collaborator: subprocess.run with shell=True,
as a function of the command text and the current file system. -/
abbrev Runner := String → FS → RunOutcome

/-- Exceptions escaping execute_build_queue: CommandFailException carrying
the failing command text, or an OSError from re-hashing. -/
inductive ExecError : Type where
  | commandFail (command : String)
  | ioError
deriving DecidableEq

/-- State returned by the executor loop: the entries still in the deque,
the file system, the hash store, the trace of commands run, and the
exception if one was raised. -/
structure ExecState : Type where
  remaining : List BuildElement
  fs : FS
  hashes : Hashes
  commands_run : List String
  error : Option ExecError

/-- The two store assignments at the end of the executor loop body:
refresh the element's command digest, then its file digest (the command
assignment persists even when the file read then raises). -/
def refresh (hash : String → Digest) (fs : FS) (e : BuildElement)
    (hashes : Hashes) : Hashes × Option ExecError :=
  let h1 : Hashes :=
    { hashes with
      command_hashes :=
        hashes.command_hashes.update e.path (get_command_hash hash e.build_command) }
  match get_file_hash hash fs e.path with
  | none => (h1, some .ioError)
  | some fh => ({ h1 with file_hashes := h1.file_hashes.update e.path fh }, none)

/-- The loop of execute_build_queue over the queue in consumption order
(head = next element popped from the deque's right end). -/
def exec_go (hash : String → Digest) (runner : Runner) :
    List BuildElement → FS → Hashes → List String → ExecState
  | [], fs, hashes, tr => ⟨[], fs, hashes, tr, none⟩
  | e :: rest, fs, hashes, tr =>
    if e.build_command = "" then
      match refresh hash fs e hashes with
      | (h', none) => exec_go hash runner rest fs h' tr
      | (h', some err) => ⟨rest, fs, h', tr, some err⟩
    else
      match runner e.build_command fs with
      | .launchError =>
        ⟨rest, fs, hashes, tr ++ [e.build_command], some (.commandFail e.build_command)⟩
      | .ran fs' exitZero =>
        if exitZero then
          match refresh hash fs' e hashes with
          | (h', none) => exec_go hash runner rest fs' h' (tr ++ [e.build_command])
          | (h', some err) => ⟨rest, fs', h', tr ++ [e.build_command], some err⟩
        else
          ⟨rest, fs', hashes, tr ++ [e.build_command], some (.commandFail e.build_command)⟩

/-- Function execute_build_queue: pop elements from the right end of the
deque until it is empty or an exception is raised; the remaining field is
given back in deque order (left end first). -/
def execute_build_queue (hash : String → Digest) (runner : Runner)
    (build_queue : List BuildElement) (fs : FS) (hashes : Hashes) : ExecState :=
  let s := exec_go hash runner build_queue.reverse fs hashes []
  { s with remaining := s.remaining.reverse }

/-- Durable state an invocation starts from and leaves behind: the file
system and the persisted hash database (none = the database file does not
exist). -/
structure DiskState : Type where
  fs : FS
  db : Option Hashes

/-- Result of one invocation of build: whether it returned True, the queue
resolution produced, the final durable state, and the trace of commands
run. -/
structure InvokeResult : Type where
  success : Bool
  queue : List BuildElement
  disk : DiskState
  commands_run : List String

/-- Function read_hashes_db: an absent database file reads as an empty
store. -/
def read_hashes_db (db : Option Hashes) : Hashes :=
  db.getD Hashes.empty

/-- Function build of Builder.py, restricted to the incremental-build
core: read the baseline, resolve the tree against it into a queue and a
fresh snapshot, execute the queue, and persist the snapshot only when
everything succeeded; every failure path returns False having written
nothing to the database. -/
def invoke (hash : String → Digest) (runner : Runner) (tree : BuildElement)
    (disk : DiskState) : InvokeResult :=
  let hashes := read_hashes_db disk.db
  match update_build_queue hash disk.fs tree hashes [] Hashes.empty with
  | none => ⟨false, [], disk, []⟩
  | some (_, q, hashes_new) =>
    let s := execute_build_queue hash runner q disk.fs hashes_new
    match s.error with
    | some _ => ⟨false, q, ⟨s.fs, disk.db⟩, s.commands_run⟩
    | none => ⟨true, q, ⟨s.fs, some s.hashes⟩, s.commands_run⟩

/- ------------------------------------------------------------------ -/
/- Basic lemmas about the embedding                                    -/
/- ------------------------------------------------------------------ -/

@[simp] theorem path_mk (p c : String) (deps : List BuildElement) :
    (BuildElement.mk p c deps).path = p := rfl

@[simp] theorem build_command_mk (p c : String) (deps : List BuildElement) :
    (BuildElement.mk p c deps).build_command = c := rfl

@[simp] theorem dependencies_mk (p c : String) (deps : List BuildElement) :
    (BuildElement.mk p c deps).dependencies = deps := rfl

theorem nodes_mk (p c : String) (deps : List BuildElement) :
    nodes (.mk p c deps) = .mk p c deps :: nodesList deps := by
  rw [nodes]

@[simp] theorem nodesList_nil : nodesList [] = [] := by rw [nodesList]

theorem nodesList_cons (d : BuildElement) (rest : List BuildElement) :
    nodesList (d :: rest) = nodes d ++ nodesList rest := by
  rw [nodesList]

theorem nodes_self (e : BuildElement) : e ∈ nodes e := by
  match e with
  | .mk p c deps => rw [nodes_mk]; exact List.mem_cons_self _ _

theorem nodes_sub_nodesList {d : BuildElement} {l : List BuildElement}
    (h : d ∈ l) {x : BuildElement} (hx : x ∈ nodes d) : x ∈ nodesList l := by
  induction l with
  | nil => cases h
  | cons a rest ih =>
    rw [nodesList_cons]
    rcases List.mem_cons.mp h with h1 | h2
    · subst h1; exact List.mem_append_left _ hx
    · exact List.mem_append_right _ (ih h2)

theorem descendants_sub_nodes {e x : BuildElement} (h : x ∈ descendants e) :
    x ∈ nodes e := by
  match e with
  | .mk p c deps =>
    rw [descendants] at h
    rw [nodes_mk]
    exact List.mem_cons_of_mem _ h

/- The staleness flag returned by update_build_queue coincides with the
pure function stale: it does not depend on the queue nor on the snapshot
accumulated so far. -/

theorem map_fst_if (b : Bool) (x y : List BuildElement × Hashes) :
    Option.map (fun r : Bool × List BuildElement × Hashes => r.1)
      (if b then some (true, x) else some (false, y)) = some b := by
  cases b <;> rfl

/-- Characterization of command_hash_changed: the flag is the negation of
agreement with the baseline entry, and the snapshot gains the fresh
command digest at the element's path. -/
theorem command_hash_changed_eq (hash : String → Digest) (e : BuildElement)
    (hashes : Hashes) (hn : Hashes) :
    command_hash_changed hash e hashes hn
      = ((!(hashes.command_hashes e.path
            == some (get_command_hash hash e.build_command))),
         { hn with command_hashes :=
             hn.command_hashes.update e.path (get_command_hash hash e.build_command) }) := by
  rw [command_hash_changed]
  cases h : hashes.command_hashes e.path with
  | none => simp
  | some old =>
    by_cases hc : get_command_hash hash e.build_command = old
    · simp [hc]
    · have hne : ¬ (old = get_command_hash hash e.build_command) := fun hcon => hc hcon.symm
      simp [hc, hne]

/-- Characterization of file_hash_changed in the same style. -/
theorem file_hash_changed_eq (hash : String → Digest) (fs : FS)
    (e : BuildElement) (hashes : Hashes) (hn : Hashes) :
    file_hash_changed hash fs e hashes hn
      = match get_file_hash hash fs e.path with
        | none => none
        | some current =>
          some ((!(hashes.file_hashes e.path == some current)),
            { hn with file_hashes := hn.file_hashes.update e.path current }) := by
  rw [file_hash_changed]
  cases hf : get_file_hash hash fs e.path with
  | none => rfl
  | some current =>
    cases h : hashes.file_hashes e.path with
    | none => simp
    | some old =>
      by_cases hc : current = old
      · simp [hc]
      · have hne : ¬ (old = current) := fun hcon => hc hcon.symm
        simp [hc, hne]

/-- The fresh-snapshot store produced by one node's own two recording
steps, starting from hn1. -/
def record_node (hash : String → Digest) (p c : String) (current : Digest)
    (hn1 : Hashes) : Hashes :=
  ⟨hn1.file_hashes.update p current,
   hn1.command_hashes.update p (get_command_hash hash c)⟩

/-- Normal form of one unfolding of update_build_queue at a node. -/
theorem ubq_unfold (hash : String → Digest) (fs : FS) (p c : String)
    (deps : List BuildElement) (hashes : Hashes) (q : List BuildElement)
    (hn : Hashes) :
    update_build_queue hash fs (.mk p c deps) hashes q hn
      = match update_deps hash fs deps hashes q hn with
        | none => none
        | some (dsb, q1, hn1) =>
          match get_file_hash hash fs p with
          | none => none
          | some current =>
            if ((!(hashes.file_hashes p == some current))
              || ((!(hashes.command_hashes p
                    == some (get_command_hash hash c)))
                || dsb))
            then some (true, .mk p c deps :: q1, record_node hash p c current hn1)
            else some (false, q1, record_node hash p c current hn1) := by
  rw [update_build_queue]
  cases hud : update_deps hash fs deps hashes q hn with
  | none => rfl
  | some r =>
    obtain ⟨dsb, q1, hn1⟩ := r
    dsimp only
    rw [command_hash_changed_eq, file_hash_changed_eq]
    simp only [path_mk, build_command_mk]
    cases hf : get_file_hash hash fs p with
    | none => rfl
    | some current => rfl

/-- Unfolding of update_deps on a cons cell. -/
theorem update_deps_cons (hash : String → Digest) (fs : FS) (d : BuildElement)
    (rest : List BuildElement) (hashes : Hashes) (q : List BuildElement)
    (hn : Hashes) :
    update_deps hash fs (d :: rest) hashes q hn
      = match update_build_queue hash fs d hashes q hn with
        | none => none
        | some (b1, q1, hn1) =>
          match update_deps hash fs rest hashes q1 hn1 with
          | none => none
          | some (b2, q2, hn2) => some (b1 || b2, q2, hn2) := by
  rw [update_deps]

@[simp] theorem update_deps_nil (hash : String → Digest) (fs : FS)
    (hashes : Hashes) (q : List BuildElement) (hn : Hashes) :
    update_deps hash fs [] hashes q hn = some (false, q, hn) := by
  rw [update_deps]

theorem stale_mk (hash : String → Digest) (fs : FS) (p c : String)
    (deps : List BuildElement) (hashes : Hashes) :
    stale hash fs (.mk p c deps) hashes
      = match staleList hash fs deps hashes with
        | none => none
        | some dsb =>
          match get_file_hash hash fs p with
          | none => none
          | some current =>
            some ((!(hashes.file_hashes p == some current))
              || ((!(hashes.command_hashes p
                    == some (get_command_hash hash c)))
                || dsb)) := by
  rw [stale]

theorem staleList_cons (hash : String → Digest) (fs : FS) (d : BuildElement)
    (rest : List BuildElement) (hashes : Hashes) :
    staleList hash fs (d :: rest) hashes
      = match stale hash fs d hashes with
        | none => none
        | some b1 =>
          match staleList hash fs rest hashes with
          | none => none
          | some b2 => some (b1 || b2) := by
  rw [staleList]

@[simp] theorem staleList_nil (hash : String → Digest) (fs : FS)
    (hashes : Hashes) : staleList hash fs [] hashes = some false := by
  rw [staleList]

mutual

theorem ubq_fst (hash : String → Digest) (fs : FS) (e : BuildElement)
    (hashes : Hashes) (q : List BuildElement) (hn : Hashes) :
    (update_build_queue hash fs e hashes q hn).map (fun r => r.1)
      = stale hash fs e hashes := by
  match e with
  | .mk p c deps =>
    rw [ubq_unfold, stale_mk]
    have hd := update_deps_fst hash fs deps hashes q hn
    cases hdep : update_deps hash fs deps hashes q hn with
    | none =>
      rw [hdep] at hd
      simp only [Option.map_none'] at hd
      rw [← hd]
      rfl
    | some r =>
      obtain ⟨b1, q1, hn1⟩ := r
      rw [hdep] at hd
      simp only [Option.map_some'] at hd
      rw [← hd]
      dsimp only
      cases hf : get_file_hash hash fs p with
      | none => rfl
      | some current => exact map_fst_if _ _ _

theorem update_deps_fst (hash : String → Digest) (fs : FS)
    (deps : List BuildElement) (hashes : Hashes) (q : List BuildElement)
    (hn : Hashes) :
    (update_deps hash fs deps hashes q hn).map (fun r => r.1)
      = staleList hash fs deps hashes := by
  match deps with
  | [] => simp
  | d :: rest =>
    rw [update_deps_cons, staleList_cons]
    have h1 := ubq_fst hash fs d hashes q hn
    cases hd : update_build_queue hash fs d hashes q hn with
    | none =>
      rw [hd] at h1
      simp only [Option.map_none'] at h1
      rw [← h1]
      rfl
    | some r1 =>
      obtain ⟨b1, q1, hn1⟩ := r1
      rw [hd] at h1
      simp only [Option.map_some'] at h1
      rw [← h1]
      dsimp only
      have h2 := update_deps_fst hash fs rest hashes q1 hn1
      cases hr : update_deps hash fs rest hashes q1 hn1 with
      | none =>
        rw [hr] at h2
        simp only [Option.map_none'] at h2
        rw [← h2]
        rfl
      | some r2 =>
        obtain ⟨b2, q2, hn2⟩ := r2
        rw [hr] at h2
        simp only [Option.map_some'] at h2
        rw [← h2]
        rfl

end

/- Structure of the queue produced by one resolution call: the call only
prepends new entries, every new entry is a node of the processed subtree,
and every stale node of the processed subtree is among the new entries. -/

mutual

theorem ubq_queue (hash : String → Digest) (fs : FS) (e : BuildElement)
    (hashes : Hashes) (q : List BuildElement) (hn : Hashes) (b : Bool)
    (q' : List BuildElement) (hn' : Hashes)
    (h : update_build_queue hash fs e hashes q hn = some (b, q', hn')) :
    ∃ w, q' = w ++ q ∧ (∀ x ∈ w, x ∈ nodes e) ∧
      (∀ d ∈ nodes e, stale hash fs d hashes = some true → d ∈ w) := by
  match e with
  | .mk p c deps =>
    have hstale := ubq_fst hash fs (.mk p c deps) hashes q hn
    rw [h] at hstale
    simp only [Option.map_some'] at hstale
    rw [ubq_unfold] at h
    cases hud : update_deps hash fs deps hashes q hn with
    | none => rw [hud] at h; exact Option.noConfusion h
    | some r =>
      obtain ⟨dsb, q1, hn1⟩ := r
      rw [hud] at h
      dsimp only at h
      cases hf : get_file_hash hash fs p with
      | none => rw [hf] at h; exact Option.noConfusion h
      | some current =>
        rw [hf] at h
        dsimp only at h
        obtain ⟨w1, hq1, hmem, hcomp⟩ :=
          update_deps_queue hash fs deps hashes q hn dsb q1 hn1 hud
        split at h
        · simp only [Option.some.injEq, Prod.mk.injEq] at h
          obtain ⟨hb, hq, hhn⟩ := h
          refine ⟨.mk p c deps :: w1, ?_, ?_, ?_⟩
          · rw [← hq, hq1]; rfl
          · intro x hx
            rcases List.mem_cons.mp hx with h1 | h2
            · subst h1; exact nodes_self _
            · rw [nodes_mk]
              exact List.mem_cons_of_mem _ (hmem x h2)
          · intro d hd hds
            rw [nodes_mk] at hd
            rcases List.mem_cons.mp hd with h1 | h2
            · subst h1; exact List.mem_cons_self _ _
            · exact List.mem_cons_of_mem _ (hcomp d h2 hds)
        · simp only [Option.some.injEq, Prod.mk.injEq] at h
          obtain ⟨hb, hq, hhn⟩ := h
          refine ⟨w1, by rw [← hq, hq1], ?_, ?_⟩
          · intro x hx
            rw [nodes_mk]
            exact List.mem_cons_of_mem _ (hmem x hx)
          · intro d hd hds
            rw [nodes_mk] at hd
            rcases List.mem_cons.mp hd with h1 | h2
            · subst h1
              rw [← hb] at hstale
              rw [hds] at hstale
              exact absurd (Option.some.inj hstale) (by simp)
            · exact hcomp d h2 hds

theorem update_deps_queue (hash : String → Digest) (fs : FS)
    (deps : List BuildElement) (hashes : Hashes) (q : List BuildElement)
    (hn : Hashes) (b : Bool) (q' : List BuildElement) (hn' : Hashes)
    (h : update_deps hash fs deps hashes q hn = some (b, q', hn')) :
    ∃ w, q' = w ++ q ∧ (∀ x ∈ w, x ∈ nodesList deps) ∧
      (∀ d ∈ nodesList deps, stale hash fs d hashes = some true → d ∈ w) := by
  match deps with
  | [] =>
    rw [update_deps_nil] at h
    simp only [Option.some.injEq, Prod.mk.injEq] at h
    obtain ⟨hb, hq, hhn⟩ := h
    refine ⟨[], by rw [← hq]; rfl, ?_, ?_⟩
    · intro x hx; cases hx
    · intro d hd; cases hd
  | d :: rest =>
    rw [update_deps_cons] at h
    cases hd1 : update_build_queue hash fs d hashes q hn with
    | none => rw [hd1] at h; exact Option.noConfusion h
    | some r1 =>
      obtain ⟨b1, q1, hn1⟩ := r1
      rw [hd1] at h
      dsimp only at h
      cases hd2 : update_deps hash fs rest hashes q1 hn1 with
      | none => rw [hd2] at h; exact Option.noConfusion h
      | some r2 =>
        obtain ⟨b2, q2, hn2⟩ := r2
        rw [hd2] at h
        dsimp only at h
        simp only [Option.some.injEq, Prod.mk.injEq] at h
        obtain ⟨hb, hq, hhn⟩ := h
        obtain ⟨w1, hq1, hmem1, hcomp1⟩ :=
          ubq_queue hash fs d hashes q hn b1 q1 hn1 hd1
        obtain ⟨w2, hq2, hmem2, hcomp2⟩ :=
          update_deps_queue hash fs rest hashes q1 hn1 b2 q2 hn2 hd2
        refine ⟨w2 ++ w1, ?_, ?_, ?_⟩
        · rw [← hq, hq2, hq1, List.append_assoc]
        · intro x hx
          rw [nodesList_cons]
          rcases List.mem_append.mp hx with h1 | h2
          · exact List.mem_append_right _ (hmem2 x h1)
          · exact List.mem_append_left _ (hmem1 x h2)
        · intro d' hd' hds
          rw [nodesList_cons] at hd'
          rcases List.mem_append.mp hd' with h1 | h2
          · exact List.mem_append_right _ (hcomp1 d' h1 hds)
          · exact List.mem_append_left _ (hcomp2 d' h2 hds)

end

/-- Topological validity of a deque (head = left end, consumption from the
right end): wherever a node sits in the deque, every transitive dependency
of it that resolution determines stale sits strictly to its right, i.e. is
popped strictly before it. -/
def GoodQueue (hash : String → Digest) (fs : FS) (hashes : Hashes)
    (q : List BuildElement) : Prop :=
  ∀ l n r, q = l ++ n :: r →
    ∀ d ∈ descendants n, stale hash fs d hashes = some true → d ∈ r

theorem goodQueue_nil (hash : String → Digest) (fs : FS) (hashes : Hashes) :
    GoodQueue hash fs hashes [] := by
  intro l n r hq
  exact absurd hq (by simp)

theorem goodQueue_cons (hash : String → Digest) (fs : FS) (hashes : Hashes)
    (e : BuildElement) (q : List BuildElement)
    (hq : GoodQueue hash fs hashes q)
    (he : ∀ d ∈ descendants e, stale hash fs d hashes = some true → d ∈ q) :
    GoodQueue hash fs hashes (e :: q) := by
  intro l n r hsplit d hd hds
  cases l with
  | nil =>
    simp only [List.nil_append, List.cons.injEq] at hsplit
    obtain ⟨hn, hr⟩ := hsplit
    subst hn; subst hr
    exact he d hd hds
  | cons x l' =>
    simp only [List.cons_append, List.cons.injEq] at hsplit
    obtain ⟨hx, hrest⟩ := hsplit
    exact hq l' n r hrest d hd hds

mutual

theorem ubq_good (hash : String → Digest) (fs : FS) (e : BuildElement)
    (hashes : Hashes) (q : List BuildElement) (hn : Hashes) (b : Bool)
    (q' : List BuildElement) (hn' : Hashes)
    (h : update_build_queue hash fs e hashes q hn = some (b, q', hn'))
    (hg : GoodQueue hash fs hashes q) : GoodQueue hash fs hashes q' := by
  match e with
  | .mk p c deps =>
    rw [ubq_unfold] at h
    cases hud : update_deps hash fs deps hashes q hn with
    | none => rw [hud] at h; exact Option.noConfusion h
    | some r =>
      obtain ⟨dsb, q1, hn1⟩ := r
      rw [hud] at h
      dsimp only at h
      cases hf : get_file_hash hash fs p with
      | none => rw [hf] at h; exact Option.noConfusion h
      | some current =>
        rw [hf] at h
        dsimp only at h
        have hg1 : GoodQueue hash fs hashes q1 :=
          update_deps_good hash fs deps hashes q hn dsb q1 hn1 hud hg
        obtain ⟨w1, hq1, hmem, hcomp⟩ :=
          update_deps_queue hash fs deps hashes q hn dsb q1 hn1 hud
        split at h
        · simp only [Option.some.injEq, Prod.mk.injEq] at h
          obtain ⟨hb, hq, hhn⟩ := h
          rw [← hq]
          refine goodQueue_cons hash fs hashes _ q1 hg1 ?_
          intro d hd hds
          rw [descendants] at hd
          rw [hq1]
          exact List.mem_append_left _ (hcomp d hd hds)
        · simp only [Option.some.injEq, Prod.mk.injEq] at h
          obtain ⟨hb, hq, hhn⟩ := h
          rw [← hq]
          exact hg1

theorem update_deps_good (hash : String → Digest) (fs : FS)
    (deps : List BuildElement) (hashes : Hashes) (q : List BuildElement)
    (hn : Hashes) (b : Bool) (q' : List BuildElement) (hn' : Hashes)
    (h : update_deps hash fs deps hashes q hn = some (b, q', hn'))
    (hg : GoodQueue hash fs hashes q) : GoodQueue hash fs hashes q' := by
  match deps with
  | [] =>
    rw [update_deps_nil] at h
    simp only [Option.some.injEq, Prod.mk.injEq] at h
    obtain ⟨hb, hq, hhn⟩ := h
    rw [← hq]
    exact hg
  | d :: rest =>
    rw [update_deps_cons] at h
    cases hd1 : update_build_queue hash fs d hashes q hn with
    | none => rw [hd1] at h; exact Option.noConfusion h
    | some r1 =>
      obtain ⟨b1, q1, hn1⟩ := r1
      rw [hd1] at h
      dsimp only at h
      cases hd2 : update_deps hash fs rest hashes q1 hn1 with
      | none => rw [hd2] at h; exact Option.noConfusion h
      | some r2 =>
        obtain ⟨b2, q2, hn2⟩ := r2
        rw [hd2] at h
        dsimp only at h
        simp only [Option.some.injEq, Prod.mk.injEq] at h
        obtain ⟨hb, hq, hhn⟩ := h
        rw [← hq]
        exact update_deps_good hash fs rest hashes q1 hn1 b2 q2 hn2 hd2
          (ubq_good hash fs d hashes q hn b1 q1 hn1 hd1 hg)

end

/- Snapshot contents after resolution: every visited node has a freshly
computed file digest recorded, and a command digest recorded by some
visited node with the same path; paths never visited keep their previous
entries. -/

@[simp] theorem Store.update_self (m : Store) (k : String) (v : Digest) :
    Store.update m k v k = some v := by
  rw [Store.update]
  simp

theorem Store.update_ne (m : Store) (k : String) (v : Digest) (p : String)
    (h : p ≠ k) : Store.update m k v p = m p := by
  rw [Store.update]
  simp [h]

/-- Some node of scope S with path p0 has its command digest recorded in
the table at p0. -/
def CmdFact (hash : String → Digest) (S : List BuildElement) (hn : Hashes)
    (p0 : String) : Prop :=
  ∃ m ∈ S, m.path = p0
    ∧ hn.command_hashes p0 = some (get_command_hash hash m.build_command)

theorem CmdFact.mono {hash : String → Digest} {S S' : List BuildElement}
    {hn : Hashes} {p0 : String} (hsub : ∀ x ∈ S, x ∈ S')
    (h : CmdFact hash S hn p0) : CmdFact hash S' hn p0 := by
  obtain ⟨m, hm, hp, he⟩ := h
  exact ⟨m, hsub m hm, hp, he⟩

theorem CmdFact.congr {hash : String → Digest} {S : List BuildElement}
    {hn hn' : Hashes} {p0 : String}
    (heq : hn'.command_hashes p0 = hn.command_hashes p0)
    (h : CmdFact hash S hn p0) : CmdFact hash S hn' p0 := by
  obtain ⟨m, hm, hp, he⟩ := h
  exact ⟨m, hm, hp, by rw [heq]; exact he⟩

/-- Decomposition of a successful update_build_queue call at a node: the
dependency pass succeeded, the node's own file digest was computable, and
the returned snapshot is the dependency-pass snapshot with the node's two
entries recorded on top. -/
theorem ubq_hn (hash : String → Digest) (fs : FS) (p c : String)
    (deps : List BuildElement) (hashes : Hashes) (q : List BuildElement)
    (hn : Hashes) (b : Bool) (q' : List BuildElement) (hn' : Hashes)
    (h : update_build_queue hash fs (.mk p c deps) hashes q hn = some (b, q', hn')) :
    ∃ dsb q1 hn1 current,
      update_deps hash fs deps hashes q hn = some (dsb, q1, hn1)
      ∧ get_file_hash hash fs p = some current
      ∧ hn' = record_node hash p c current hn1 := by
  rw [ubq_unfold] at h
  cases hud : update_deps hash fs deps hashes q hn with
  | none => rw [hud] at h; exact Option.noConfusion h
  | some r =>
    obtain ⟨dsb, q1, hn1⟩ := r
    rw [hud] at h
    dsimp only at h
    cases hf : get_file_hash hash fs p with
    | none => rw [hf] at h; exact Option.noConfusion h
    | some current =>
      rw [hf] at h
      dsimp only at h
      split at h
      · simp only [Option.some.injEq, Prod.mk.injEq] at h
        exact ⟨dsb, q1, hn1, current, rfl, rfl, h.2.2.symm⟩
      · simp only [Option.some.injEq, Prod.mk.injEq] at h
        exact ⟨dsb, q1, hn1, current, rfl, rfl, h.2.2.symm⟩

mutual

theorem ubq_snap (hash : String → Digest) (fs : FS) (e : BuildElement)
    (hashes : Hashes) (q : List BuildElement) (hn : Hashes) (b : Bool)
    (q' : List BuildElement) (hn' : Hashes)
    (h : update_build_queue hash fs e hashes q hn = some (b, q', hn')) :
    (∀ p0, (hn'.command_hashes p0 = hn.command_hashes p0
              ∨ CmdFact hash (nodes e) hn' p0)
         ∧ (hn'.file_hashes p0 = hn.file_hashes p0
              ∨ hn'.file_hashes p0 = get_file_hash hash fs p0))
    ∧ (∀ n ∈ nodes e, CmdFact hash (nodes e) hn' n.path
         ∧ hn'.file_hashes n.path = get_file_hash hash fs n.path
         ∧ (get_file_hash hash fs n.path).isSome) := by
  match e with
  | .mk p c deps =>
    obtain ⟨dsb, q1, hn1, current, hud, hf, hR⟩ :=
      ubq_hn hash fs p c deps hashes q hn b q' hn' h
    obtain ⟨hframe1, hpos1⟩ :=
      update_deps_snap hash fs deps hashes q hn dsb q1 hn1 hud
    subst hR
    have hsub : ∀ x ∈ nodesList deps, x ∈ nodes (BuildElement.mk p c deps) := by
      intro x hx
      rw [nodes_mk]
      exact List.mem_cons_of_mem _ hx
    have hcmd_at : ∀ p0, p0 ≠ p →
        (record_node hash p c current hn1).command_hashes p0
          = hn1.command_hashes p0 := by
      intro p0 hne
      exact Store.update_ne _ _ _ _ hne
    have hfile_at : ∀ p0, p0 ≠ p →
        (record_node hash p c current hn1).file_hashes p0
          = hn1.file_hashes p0 := by
      intro p0 hne
      exact Store.update_ne _ _ _ _ hne
    have hself_cmd : (record_node hash p c current hn1).command_hashes p
        = some (get_command_hash hash c) := Store.update_self _ _ _
    have hself_file : (record_node hash p c current hn1).file_hashes p
        = some current := Store.update_self _ _ _
    constructor
    · intro p0
      constructor
      · by_cases hp : p0 = p
        · subst hp
          refine Or.inr ⟨.mk p0 c deps, nodes_self _, rfl, ?_⟩
          rw [hself_cmd]
          rfl
        · rcases (hframe1 p0).1 with h1 | h1
          · exact Or.inl (by rw [hcmd_at p0 hp, h1])
          · exact Or.inr ((h1.congr (hcmd_at p0 hp)).mono hsub)
      · by_cases hp : p0 = p
        · subst hp
          exact Or.inr (by rw [hself_file, hf])
        · rcases (hframe1 p0).2 with h1 | h1
          · exact Or.inl (by rw [hfile_at p0 hp, h1])
          · exact Or.inr (by rw [hfile_at p0 hp, h1])
    · intro n hnmem
      rw [nodes_mk] at hnmem
      rcases List.mem_cons.mp hnmem with h1 | h1
      · subst h1
        refine ⟨⟨.mk p c deps, nodes_self _, rfl, by simp [hself_cmd]⟩, ?_, ?_⟩
        · simp only [path_mk]
          rw [hself_file, hf]
        · simp only [path_mk]
          rw [hf]
          rfl
      · obtain ⟨hc1, hf1, hs1⟩ := hpos1 n h1
        refine ⟨?_, ?_, hs1⟩
        · by_cases hp : n.path = p
          · refine ⟨.mk p c deps, nodes_self _, hp.symm, ?_⟩
            rw [hp, hself_cmd]
            rfl
          · exact (hc1.congr (hcmd_at n.path hp)).mono hsub
        · by_cases hp : n.path = p
          · rw [hp, hself_file, hf]
          · rw [hfile_at n.path hp, hf1]

theorem update_deps_snap (hash : String → Digest) (fs : FS)
    (deps : List BuildElement) (hashes : Hashes) (q : List BuildElement)
    (hn : Hashes) (b : Bool) (q' : List BuildElement) (hn' : Hashes)
    (h : update_deps hash fs deps hashes q hn = some (b, q', hn')) :
    (∀ p0, (hn'.command_hashes p0 = hn.command_hashes p0
              ∨ CmdFact hash (nodesList deps) hn' p0)
         ∧ (hn'.file_hashes p0 = hn.file_hashes p0
              ∨ hn'.file_hashes p0 = get_file_hash hash fs p0))
    ∧ (∀ n ∈ nodesList deps, CmdFact hash (nodesList deps) hn' n.path
         ∧ hn'.file_hashes n.path = get_file_hash hash fs n.path
         ∧ (get_file_hash hash fs n.path).isSome) := by
  match deps with
  | [] =>
    rw [update_deps_nil] at h
    simp only [Option.some.injEq, Prod.mk.injEq] at h
    obtain ⟨hb, hq, hhn⟩ := h
    subst hhn
    refine ⟨fun p0 => ⟨Or.inl rfl, Or.inl rfl⟩, ?_⟩
    intro n hnmem
    rw [nodesList_nil] at hnmem
    cases hnmem
  | d :: rest =>
    rw [update_deps_cons] at h
    cases hd1 : update_build_queue hash fs d hashes q hn with
    | none => rw [hd1] at h; exact Option.noConfusion h
    | some r1 =>
      obtain ⟨b1, q1, hn1⟩ := r1
      rw [hd1] at h
      dsimp only at h
      cases hd2 : update_deps hash fs rest hashes q1 hn1 with
      | none => rw [hd2] at h; exact Option.noConfusion h
      | some r2 =>
        obtain ⟨b2, q2, hn2⟩ := r2
        rw [hd2] at h
        dsimp only at h
        simp only [Option.some.injEq, Prod.mk.injEq] at h
        obtain ⟨hb, hq, hhn⟩ := h
        subst hhn
        obtain ⟨hframeD, hposD⟩ := ubq_snap hash fs d hashes q hn b1 q1 hn1 hd1
        obtain ⟨hframeR, hposR⟩ :=
          update_deps_snap hash fs rest hashes q1 hn1 b2 q2 hn2 hd2
        have hsubD : ∀ x ∈ nodes d, x ∈ nodesList (d :: rest) := by
          intro x hx
          rw [nodesList_cons]
          exact List.mem_append_left _ hx
        have hsubR : ∀ x ∈ nodesList rest, x ∈ nodesList (d :: rest) := by
          intro x hx
          rw [nodesList_cons]
          exact List.mem_append_right _ hx
        constructor
        · intro p0
          constructor
          · rcases (hframeR p0).1 with h2 | h2
            · rcases (hframeD p0).1 with h3 | h3
              · exact Or.inl (by rw [h2, h3])
              · exact Or.inr ((h3.congr h2).mono hsubD)
            · exact Or.inr (h2.mono hsubR)
          · rcases (hframeR p0).2 with h2 | h2
            · rcases (hframeD p0).2 with h3 | h3
              · exact Or.inl (by rw [h2, h3])
              · exact Or.inr (by rw [h2, h3])
            · exact Or.inr h2
        · intro n hnmem
          rw [nodesList_cons] at hnmem
          rcases List.mem_append.mp hnmem with h1 | h1
          · obtain ⟨hc1, hf1, hs1⟩ := hposD n h1
            refine ⟨?_, ?_, hs1⟩
            · rcases (hframeR n.path).1 with h2 | h2
              · exact (hc1.congr h2).mono hsubD
              · exact h2.mono hsubR
            · rcases (hframeR n.path).2 with h2 | h2
              · rw [h2, hf1]
              · exact h2
          · obtain ⟨hc1, hf1, hs1⟩ := hposR n h1
            exact ⟨hc1.mono hsubR, hf1, hs1⟩

end

/- Resolution against a consistent baseline: when every node's baseline
entries agree with the node's current digests, nothing is enqueued and the
returned flag is false. -/

/-- Baseline consistency for every node of a subtree list. -/
def Consistent (hash : String → Digest) (fs : FS) (hashes : Hashes)
    (S : List BuildElement) : Prop :=
  ∀ n ∈ S, hashes.command_hashes n.path
      = some (get_command_hash hash n.build_command)
    ∧ hashes.file_hashes n.path = get_file_hash hash fs n.path
    ∧ (get_file_hash hash fs n.path).isSome

mutual

theorem ubq_fresh (hash : String → Digest) (fs : FS) (e : BuildElement)
    (hashes : Hashes) (q : List BuildElement) (hn : Hashes)
    (h : Consistent hash fs hashes (nodes e)) :
    ∃ hn', update_build_queue hash fs e hashes q hn = some (false, q, hn') := by
  match e with
  | .mk p c deps =>
    have hdeps : Consistent hash fs hashes (nodesList deps) := by
      intro n hnmem
      refine h n ?_
      rw [nodes_mk]
      exact List.mem_cons_of_mem _ hnmem
    obtain ⟨hn1, hud⟩ := update_deps_fresh hash fs deps hashes q hn hdeps
    obtain ⟨hcmd, hfile, hsome⟩ := h (.mk p c deps) (nodes_self _)
    simp only [path_mk, build_command_mk] at hcmd hfile hsome
    obtain ⟨current, hf⟩ := Option.isSome_iff_exists.mp hsome
    refine ⟨record_node hash p c current hn1, ?_⟩
    rw [ubq_unfold, hud]
    dsimp only
    rw [hf]
    dsimp only
    rw [hfile, hf, hcmd]
    simp [get_command_hash]

theorem update_deps_fresh (hash : String → Digest) (fs : FS)
    (deps : List BuildElement) (hashes : Hashes) (q : List BuildElement)
    (hn : Hashes) (h : Consistent hash fs hashes (nodesList deps)) :
    ∃ hn', update_deps hash fs deps hashes q hn = some (false, q, hn') := by
  match deps with
  | [] => exact ⟨hn, by rw [update_deps_nil]⟩
  | d :: rest =>
    have hd : Consistent hash fs hashes (nodes d) := by
      intro n hnmem
      refine h n ?_
      rw [nodesList_cons]
      exact List.mem_append_left _ hnmem
    have hrest : Consistent hash fs hashes (nodesList rest) := by
      intro n hnmem
      refine h n ?_
      rw [nodesList_cons]
      exact List.mem_append_right _ hnmem
    obtain ⟨hn1, h1⟩ := ubq_fresh hash fs d hashes q hn hd
    obtain ⟨hn2, h2⟩ := update_deps_fresh hash fs rest hashes q hn1 hrest
    refine ⟨hn2, ?_⟩
    rw [update_deps_cons, h1]
    dsimp only
    rw [h2]
    rfl

end

/- Executor lemmas. -/

theorem refresh_eq (hash : String → Digest) (fs : FS) (e : BuildElement)
    (H : Hashes) :
    refresh hash fs e H
      = match get_file_hash hash fs e.path with
        | none =>
          ({ H with command_hashes :=
              H.command_hashes.update e.path (get_command_hash hash e.build_command) },
           some .ioError)
        | some fh =>
          (⟨H.file_hashes.update e.path fh,
            H.command_hashes.update e.path (get_command_hash hash e.build_command)⟩,
           none) := by
  rw [refresh]

theorem exec_go_nil (hash : String → Digest) (runner : Runner) (fs : FS)
    (H : Hashes) (tr : List String) :
    exec_go hash runner [] fs H tr = ⟨[], fs, H, tr, none⟩ := by
  rw [exec_go]

theorem exec_go_cons_empty (hash : String → Digest) (runner : Runner)
    (e : BuildElement) (rest : List BuildElement) (fs : FS) (H : Hashes)
    (tr : List String) (hcmd : e.build_command = "") :
    exec_go hash runner (e :: rest) fs H tr
      = match refresh hash fs e H with
        | (h', none) => exec_go hash runner rest fs h' tr
        | (h', some err) => ⟨rest, fs, h', tr, some err⟩ := by
  rw [exec_go, if_pos hcmd]

theorem exec_go_cons_launch_fail (hash : String → Digest) (runner : Runner)
    (e : BuildElement) (rest : List BuildElement) (fs : FS) (H : Hashes)
    (tr : List String) (hcmd : ¬ e.build_command = "")
    (hrun : runner e.build_command fs = .launchError) :
    exec_go hash runner (e :: rest) fs H tr
      = ⟨rest, fs, H, tr ++ [e.build_command],
          some (.commandFail e.build_command)⟩ := by
  rw [exec_go, if_neg hcmd, hrun]

theorem exec_go_cons_exit_fail (hash : String → Digest) (runner : Runner)
    (e : BuildElement) (rest : List BuildElement) (fs fs' : FS) (H : Hashes)
    (tr : List String) (hcmd : ¬ e.build_command = "")
    (hrun : runner e.build_command fs = .ran fs' false) :
    exec_go hash runner (e :: rest) fs H tr
      = ⟨rest, fs', H, tr ++ [e.build_command],
          some (.commandFail e.build_command)⟩ := by
  rw [exec_go, if_neg hcmd, hrun]
  rfl

theorem exec_go_cons_ok (hash : String → Digest) (runner : Runner)
    (e : BuildElement) (rest : List BuildElement) (fs fs' : FS) (H : Hashes)
    (tr : List String) (hcmd : ¬ e.build_command = "")
    (hrun : runner e.build_command fs = .ran fs' true) :
    exec_go hash runner (e :: rest) fs H tr
      = match refresh hash fs' e H with
        | (h', none) => exec_go hash runner rest fs' h' (tr ++ [e.build_command])
        | (h', some err) => ⟨rest, fs', h', tr ++ [e.build_command], some err⟩ := by
  rw [exec_go, if_neg hcmd, hrun]
  rfl

/-- Processing a concatenated consumption list: once the first part
completes without an exception, the executor continues into the second
part from the state the first part left behind. -/
theorem exec_append_ok (hash : String → Digest) (runner : Runner)
    (A B : List BuildElement) (fs : FS) (H : Hashes) (tr : List String)
    (fs1 : FS) (H1 : Hashes) (tr1 : List String)
    (h : exec_go hash runner A fs H tr = ⟨[], fs1, H1, tr1, none⟩) :
    exec_go hash runner (A ++ B) fs H tr = exec_go hash runner B fs1 H1 tr1 := by
  induction A generalizing fs H tr with
  | nil =>
    rw [exec_go_nil] at h
    simp only [ExecState.mk.injEq] at h
    obtain ⟨-, hfs, hH, htr, -⟩ := h
    subst hfs; subst hH; subst htr
    rw [List.nil_append]
  | cons e rest ih =>
    by_cases hcmd : e.build_command = ""
    · rw [exec_go_cons_empty hash runner e rest fs H tr hcmd] at h
      rw [List.cons_append, exec_go_cons_empty hash runner e (rest ++ B) fs H tr hcmd]
      rcases hre : refresh hash fs e H with ⟨h', err⟩
      rw [hre] at h
      cases err with
      | none =>
        dsimp only at h ⊢
        exact ih fs h' tr h
      | some err =>
        dsimp only at h
        exact Option.noConfusion (congrArg ExecState.error h)
    · cases hrun : runner e.build_command fs with
      | launchError =>
        rw [exec_go_cons_launch_fail hash runner e rest fs H tr hcmd hrun] at h
        exact Option.noConfusion (congrArg ExecState.error h)
      | ran fs' exitZero =>
        cases exitZero with
        | false =>
          rw [exec_go_cons_exit_fail hash runner e rest fs fs' H tr hcmd hrun] at h
          exact Option.noConfusion (congrArg ExecState.error h)
        | true =>
          rw [exec_go_cons_ok hash runner e rest fs fs' H tr hcmd hrun] at h
          rw [List.cons_append,
            exec_go_cons_ok hash runner e (rest ++ B) fs fs' H tr hcmd hrun]
          rcases hre : refresh hash fs' e H with ⟨h', err⟩
          rw [hre] at h
          cases err with
          | none =>
            dsimp only at h ⊢
            exact ih fs' h' (tr ++ [e.build_command]) h
          | some err =>
            dsimp only at h
            exact Option.noConfusion (congrArg ExecState.error h)

/-- The executor touches store entries only at the paths of the elements
it processes. -/
theorem exec_frame (hash : String → Digest) (runner : Runner)
    (L : List BuildElement) (fs : FS) (H : Hashes) (tr : List String)
    (p0 : String) (hp : ∀ x ∈ L, x.path ≠ p0) :
    (exec_go hash runner L fs H tr).hashes.command_hashes p0
        = H.command_hashes p0
    ∧ (exec_go hash runner L fs H tr).hashes.file_hashes p0
        = H.file_hashes p0 := by
  induction L generalizing fs H tr with
  | nil => rw [exec_go_nil]; exact ⟨rfl, rfl⟩
  | cons e rest ih =>
    have hpe : p0 ≠ e.path := (hp e (List.mem_cons_self _ _)).symm
    have hprest : ∀ x ∈ rest, x.path ≠ p0 :=
      fun x hx => hp x (List.mem_cons_of_mem _ hx)
    by_cases hcmd : e.build_command = ""
    · rw [exec_go_cons_empty hash runner e rest fs H tr hcmd, refresh_eq]
      cases hf : get_file_hash hash fs e.path with
      | none =>
        dsimp only
        exact ⟨Store.update_ne _ _ _ _ hpe, rfl⟩
      | some fh =>
        dsimp only
        obtain ⟨h1, h2⟩ := ih fs
          ⟨H.file_hashes.update e.path fh,
           H.command_hashes.update e.path (get_command_hash hash e.build_command)⟩ tr hprest
        exact ⟨by rw [h1]; exact Store.update_ne _ _ _ _ hpe,
               by rw [h2]; exact Store.update_ne _ _ _ _ hpe⟩
    · cases hrun : runner e.build_command fs with
      | launchError =>
        rw [exec_go_cons_launch_fail hash runner e rest fs H tr hcmd hrun]
        exact ⟨rfl, rfl⟩
      | ran fs' exitZero =>
        cases exitZero with
        | false =>
          rw [exec_go_cons_exit_fail hash runner e rest fs fs' H tr hcmd hrun]
          exact ⟨rfl, rfl⟩
        | true =>
          rw [exec_go_cons_ok hash runner e rest fs fs' H tr hcmd hrun, refresh_eq]
          cases hf : get_file_hash hash fs' e.path with
          | none =>
            dsimp only
            exact ⟨Store.update_ne _ _ _ _ hpe, rfl⟩
          | some fh =>
            dsimp only
            obtain ⟨h1, h2⟩ := ih fs'
              ⟨H.file_hashes.update e.path fh,
               H.command_hashes.update e.path (get_command_hash hash e.build_command)⟩
              (tr ++ [e.build_command]) hprest
            exact ⟨by rw [h1]; exact Store.update_ne _ _ _ _ hpe,
                   by rw [h2]; exact Store.update_ne _ _ _ _ hpe⟩

theorem get_file_hash_congr (hash : String → Digest) (fs fs' : FS)
    (p : String) (h : fs' p = fs p) :
    get_file_hash hash fs' p = get_file_hash hash fs p := by
  rw [get_file_hash, get_file_hash, h]

/-- A successful pass of the executor preserves baseline consistency for a
scope S, provided queue elements come from S, nodes of S sharing a path
share a command, and every successful command changes the file system only
at the executed node's own path. -/
theorem exec_consistency (hash : String → Digest) (runner : Runner)
    (S : List BuildElement)
    (hdup : ∀ n ∈ S, ∀ m ∈ S, n.path = m.path → n.build_command = m.build_command)
    (hloc : ∀ n ∈ S, ∀ fs fs', runner n.build_command fs = .ran fs' true →
      ∀ p, p ≠ n.path → fs' p = fs p)
    (L : List BuildElement) (fs : FS) (H : Hashes) (tr : List String)
    (hL : ∀ x ∈ L, x ∈ S)
    (hinv : Consistent hash fs H S)
    (herr : (exec_go hash runner L fs H tr).error = none) :
    Consistent hash (exec_go hash runner L fs H tr).fs
      (exec_go hash runner L fs H tr).hashes S := by
  induction L generalizing fs H tr with
  | nil =>
    rw [exec_go_nil] at herr ⊢
    exact hinv
  | cons e rest ih =>
    have he : e ∈ S := hL e (List.mem_cons_self _ _)
    have hLrest : ∀ x ∈ rest, x ∈ S := fun x hx => hL x (List.mem_cons_of_mem _ hx)
    by_cases hcmd : e.build_command = ""
    · obtain ⟨hc, hfl, hs⟩ := hinv e he
      obtain ⟨current, hf⟩ := Option.isSome_iff_exists.mp hs
      rw [exec_go_cons_empty hash runner e rest fs H tr hcmd, refresh_eq, hf]
        at herr ⊢
      dsimp only at herr ⊢
      refine ih fs _ tr hLrest ?_ herr
      intro n hn
      obtain ⟨hcn, hfn, hsn⟩ := hinv n hn
      by_cases hpath : n.path = e.path
      · refine ⟨?_, ?_, hsn⟩
        · rw [hpath]
          dsimp only
          rw [Store.update_self, hdup n hn e he hpath]
        · rw [hpath]
          dsimp only
          rw [Store.update_self, ← hf, ← hpath]
      · refine ⟨?_, ?_, hsn⟩
        · dsimp only
          rw [Store.update_ne _ _ _ _ hpath]
          exact hcn
        · dsimp only
          rw [Store.update_ne _ _ _ _ hpath]
          exact hfn
    · cases hrun : runner e.build_command fs with
      | launchError =>
        rw [exec_go_cons_launch_fail hash runner e rest fs H tr hcmd hrun] at herr
        exact Option.noConfusion herr
      | ran fs' exitZero =>
        cases exitZero with
        | false =>
          rw [exec_go_cons_exit_fail hash runner e rest fs fs' H tr hcmd hrun]
            at herr
          exact Option.noConfusion herr
        | true =>
          rw [exec_go_cons_ok hash runner e rest fs fs' H tr hcmd hrun, refresh_eq]
            at herr ⊢
          cases hf' : get_file_hash hash fs' e.path with
          | none =>
            rw [hf'] at herr
            exact Option.noConfusion herr
          | some fh =>
            rw [hf'] at herr
            dsimp only at herr ⊢
            refine ih fs' _ (tr ++ [e.build_command]) hLrest ?_ herr
            intro n hn
            obtain ⟨hcn, hfn, hsn⟩ := hinv n hn
            have hfschange : ∀ p, p ≠ e.path → fs' p = fs p :=
              hloc e he fs fs' hrun
            by_cases hpath : n.path = e.path
            · refine ⟨?_, ?_, ?_⟩
              · rw [hpath]
                dsimp only
                rw [Store.update_self, hdup n hn e he hpath]
              · rw [hpath]
                dsimp only
                rw [Store.update_self, ← hf', ← hpath]
              · rw [hpath, hf']
                rfl
            · have hcongr : get_file_hash hash fs' n.path
                  = get_file_hash hash fs n.path :=
                get_file_hash_congr hash fs fs' n.path (hfschange n.path hpath)
              refine ⟨?_, ?_, ?_⟩
              · dsimp only
                rw [Store.update_ne _ _ _ _ hpath]
                exact hcn
              · dsimp only
                rw [Store.update_ne _ _ _ _ hpath, hcongr]
                exact hfn
              · rw [hcongr]
                exact hsn

/-- On a run with no exception, the executed-command trace extends the
incoming trace by exactly the commands of the non-empty-command entries,
in consumption order. -/
theorem exec_trace (hash : String → Digest) (runner : Runner)
    (L : List BuildElement) (fs : FS) (H : Hashes) (tr : List String)
    (herr : (exec_go hash runner L fs H tr).error = none) :
    (exec_go hash runner L fs H tr).commands_run
      = tr ++ (L.filter (fun e => !(e.build_command == ""))).map
          (fun e => e.build_command) := by
  induction L generalizing fs H tr with
  | nil =>
    rw [exec_go_nil]
    simp
  | cons e rest ih =>
    by_cases hcmd : e.build_command = ""
    · rw [exec_go_cons_empty hash runner e rest fs H tr hcmd, refresh_eq]
        at herr ⊢
      cases hf : get_file_hash hash fs e.path with
      | none =>
        rw [hf] at herr
        exact Option.noConfusion herr
      | some fh =>
        rw [hf] at herr
        dsimp only at herr ⊢
        rw [ih fs _ tr herr]
        simp [List.filter_cons, hcmd]
    · cases hrun : runner e.build_command fs with
      | launchError =>
        rw [exec_go_cons_launch_fail hash runner e rest fs H tr hcmd hrun] at herr
        exact Option.noConfusion herr
      | ran fs' exitZero =>
        cases exitZero with
        | false =>
          rw [exec_go_cons_exit_fail hash runner e rest fs fs' H tr hcmd hrun]
            at herr
          exact Option.noConfusion herr
        | true =>
          rw [exec_go_cons_ok hash runner e rest fs fs' H tr hcmd hrun, refresh_eq]
            at herr ⊢
          cases hf : get_file_hash hash fs' e.path with
          | none =>
            rw [hf] at herr
            exact Option.noConfusion herr
          | some fh =>
            rw [hf] at herr
            dsimp only at herr ⊢
            rw [ih fs' _ (tr ++ [e.build_command]) herr]
            simp [List.filter_cons, hcmd]

/- Remaining small helpers. -/

@[simp] theorem read_hashes_db_some (H : Hashes) :
    read_hashes_db (some H) = H := rfl

@[simp] theorem read_hashes_db_none : read_hashes_db none = Hashes.empty := rfl

theorem execute_build_queue_nil (hash : String → Digest) (runner : Runner)
    (fs : FS) (H : Hashes) :
    execute_build_queue hash runner [] fs H = ⟨[], fs, H, [], none⟩ := rfl

theorem staleList_true_iff (hash : String → Digest) (fs : FS)
    (l : List BuildElement) (hashes : Hashes) (b : Bool)
    (h : staleList hash fs l hashes = some b) :
    b = true ↔ ∃ d ∈ l, stale hash fs d hashes = some true := by
  induction l generalizing b with
  | nil =>
    rw [staleList_nil] at h
    obtain rfl : false = b := Option.some.inj h
    simp
  | cons d rest ih =>
    rw [staleList_cons] at h
    cases h1 : stale hash fs d hashes with
    | none => rw [h1] at h; exact Option.noConfusion h
    | some b1 =>
      rw [h1] at h
      dsimp only at h
      cases h2 : staleList hash fs rest hashes with
      | none => rw [h2] at h; exact Option.noConfusion h
      | some b2 =>
        rw [h2] at h
        dsimp only at h
        have hb := Option.some.inj h
        subst hb
        have ihb := ih b2 h2
        constructor
        · intro hor
          rcases Bool.or_eq_true_iff.mp hor with hb1 | hb2
          · exact ⟨d, List.mem_cons_self _ _, by rw [h1, hb1]⟩
          · obtain ⟨d', hd', hs'⟩ := ihb.mp hb2
            exact ⟨d', List.mem_cons_of_mem _ hd', hs'⟩
        · rintro ⟨d', hd', hs'⟩
          rcases List.mem_cons.mp hd' with h3 | h3
          · subst h3
            rw [h1] at hs'
            obtain rfl : b1 = true := (Option.some.inj hs')
            rfl
          · have : b2 = true := ihb.mpr ⟨d', h3, hs'⟩
            rw [this, Bool.or_true]

theorem count_le_count_map (l : List BuildElement) (f : BuildElement → String)
    (a : BuildElement) : l.count a ≤ (l.map f).count (f a) := by
  induction l with
  | nil => simp
  | cons x xs ih =>
    rw [List.map_cons, List.count_cons, List.count_cons]
    by_cases hax : x = a
    · subst hax
      have h1 : (x == x) = true := beq_self_eq_true x
      have h2 : (f x == f x) = true := beq_self_eq_true (f x)
      rw [h1, h2]
      omega
    · have hx : (x == a) = false := beq_eq_false_iff_ne.mpr hax
      rw [hx]
      have he : (if ((false : Bool) = true) then (1 : Nat) else 0) = 0 := rfl
      rw [he]
      have hle : (0 : Nat) ≤ if (f x == f a) = true then 1 else 0 := Nat.zero_le _
      omega

/- ------------------------------------------------------------------ -/
/- Claim theorems                                                      -/
/- ------------------------------------------------------------------ -/

/- Concrete fixtures used by witnesses. -/

/-- Identity digest function used for concrete witness evaluation. -/
def hid : String → Digest := fun s => s

/-- A file system with no files at all. -/
def fsAbsent : FS := fun _ => .absent

/-- A runner on which every command succeeds and leaves the file system
untouched. -/
def runnerOk : Runner := fun _ fs => .ran fs true

/-- A runner on which every command fails to launch. -/
def runnerFail : Runner := fun _ _ => .launchError

/-- C3: queue order validity.  In a queue produced by update_build_queue
from an empty queue, wherever a node sits, every transitive dependency of
it that resolution determines stale sits strictly to the consumption side,
so it is popped (deque.pop takes the right end) strictly before the node. -/
theorem c3_queue_topological (hash : String → Digest) (fs : FS)
    (tree : BuildElement) (hashes : Hashes) (hn : Hashes) (b : Bool)
    (Q : List BuildElement) (hn' : Hashes)
    (h : update_build_queue hash fs tree hashes [] hn = some (b, Q, hn'))
    (l : List BuildElement) (n : BuildElement) (r : List BuildElement)
    (hsplit : Q = l ++ n :: r)
    (d : BuildElement) (hd : d ∈ descendants n)
    (hds : stale hash fs d hashes = some true) : d ∈ r :=
  ubq_good hash fs tree hashes [] hn b Q hn' h
    (goodQueue_nil hash fs hashes) l n r hsplit d hd hds

theorem c3_witness :
    stale hid fsAbsent (.mk "a" "gcc" []) Hashes.empty = some true
    ∧ (.mk "a" "gcc" [] : BuildElement) ∈ [BuildElement.mk "a" "gcc" []] :=
  ⟨rfl,
   c3_queue_topological hid fsAbsent (.mk "b" "link" [.mk "a" "gcc" []])
     Hashes.empty Hashes.empty _ _ _ rfl
     [] (.mk "b" "link" [.mk "a" "gcc" []]) [.mk "a" "gcc" []] rfl
     (.mk "a" "gcc" []) (by decide) rfl⟩

/-- C5: complete snapshot with no short-circuiting.  After a successful
update_build_queue pass, the new snapshot holds, for every node of the
tree, the freshly computed file digest of the node's path (which was
readable), and a command digest entry recorded from some visited node with
the same path (recording is unconditional, so unchanged nodes are included). -/
theorem c5_complete_snapshot (hash : String → Digest) (fs : FS)
    (tree : BuildElement) (hashes : Hashes) (q : List BuildElement)
    (hn : Hashes) (b : Bool) (q' : List BuildElement) (hn' : Hashes)
    (h : update_build_queue hash fs tree hashes q hn = some (b, q', hn')) :
    ∀ n ∈ nodes tree,
      hn'.file_hashes n.path = get_file_hash hash fs n.path
      ∧ (get_file_hash hash fs n.path).isSome
      ∧ ∃ m ∈ nodes tree, m.path = n.path
          ∧ hn'.command_hashes n.path
              = some (get_command_hash hash m.build_command) := by
  intro n hn0
  obtain ⟨-, hpos⟩ := ubq_snap hash fs tree hashes q hn b q' hn' h
  obtain ⟨hcf, hff, hs⟩ := hpos n hn0
  exact ⟨hff, hs, hcf⟩

/-- The snapshot computed for the C5 witness instance. -/
def c5data : Bool × List BuildElement × Hashes :=
  (update_build_queue hid fsAbsent (.mk "b" "link" [.mk "a" "gcc" []])
    Hashes.empty [] Hashes.empty).getD (false, [], Hashes.empty)

theorem c5_witness :
    update_build_queue hid fsAbsent (.mk "b" "link" [.mk "a" "gcc" []])
      Hashes.empty [] Hashes.empty
      = some (c5data.1, c5data.2.1, c5data.2.2)
    ∧ c5data.2.2.file_hashes "a" = get_file_hash hid fsAbsent "a" :=
  ⟨rfl,
   (c5_complete_snapshot hid fsAbsent (.mk "b" "link" [.mk "a" "gcc" []])
     Hashes.empty [] Hashes.empty c5data.1 c5data.2.1 c5data.2.2 rfl
     (.mk "a" "gcc" []) (by decide)).1⟩

/-- C6: executor abort on first failure.  With a non-empty command, a
launch failure (OSError) or a non-zero exit status stops the loop at once:
the remaining entries are left unprocessed, the store keeps the state from
before the failing element (its fingerprints are not refreshed), and the
raised error carries the failing command's text. -/
theorem c6_executor_abort (hash : String → Digest) (runner : Runner)
    (e : BuildElement) (rest : List BuildElement) (fs : FS) (H : Hashes)
    (tr : List String) (hcmd : e.build_command ≠ "") :
    (runner e.build_command fs = .launchError →
      exec_go hash runner (e :: rest) fs H tr
        = ⟨rest, fs, H, tr ++ [e.build_command],
            some (.commandFail e.build_command)⟩)
    ∧ (∀ fs', runner e.build_command fs = .ran fs' false →
      exec_go hash runner (e :: rest) fs H tr
        = ⟨rest, fs', H, tr ++ [e.build_command],
            some (.commandFail e.build_command)⟩) :=
  ⟨fun hrun => exec_go_cons_launch_fail hash runner e rest fs H tr hcmd hrun,
   fun fs' hrun => exec_go_cons_exit_fail hash runner e rest fs fs' H tr hcmd hrun⟩

theorem c6_witness :
    (BuildElement.mk "o" "cc" []).build_command ≠ ""
    ∧ exec_go hid runnerFail
        [.mk "o" "cc" [], .mk "x" "echo" []] fsAbsent Hashes.empty []
      = ⟨[.mk "x" "echo" []], fsAbsent, Hashes.empty, ["cc"],
          some (.commandFail "cc")⟩ :=
  ⟨by decide,
   (c6_executor_abort hid runnerFail (.mk "o" "cc" []) [.mk "x" "echo" []]
     fsAbsent Hashes.empty [] (by decide)).1 rfl⟩

/-- C7: post-execution refresh.  A queue entry processed successfully
(a completed command with exit status zero, or immediately for an empty
command, which runs no process and leaves the file system unchanged)
continues the loop with the store's two entries at the node's path
overwritten by the digest of the path's current on-disk state and the
digest of the command text. -/
theorem c7_post_execution_refresh (hash : String → Digest) (runner : Runner)
    (e : BuildElement) (rest : List BuildElement) (fs fs' : FS) (H : Hashes)
    (tr : List String)
    (hrun : (e.build_command = "" ∧ fs' = fs)
        ∨ (e.build_command ≠ "" ∧ runner e.build_command fs = .ran fs' true))
    (d : Digest) (hfh : get_file_hash hash fs' e.path = some d) :
    exec_go hash runner (e :: rest) fs H tr
      = exec_go hash runner rest fs'
          ⟨H.file_hashes.update e.path d,
           H.command_hashes.update e.path (get_command_hash hash e.build_command)⟩
          (if e.build_command = "" then tr else tr ++ [e.build_command]) := by
  rcases hrun with ⟨hcmd, hfs⟩ | ⟨hcmd, hrun⟩
  · subst hfs
    rw [exec_go_cons_empty hash runner e rest fs' H tr hcmd, refresh_eq, hfh]
    dsimp only
    rw [if_pos hcmd]
  · rw [exec_go_cons_ok hash runner e rest fs fs' H tr hcmd hrun, refresh_eq, hfh]
    dsimp only
    rw [if_neg hcmd]

theorem c7_witness :
    get_file_hash hid fsAbsent "a" = some ""
    ∧ exec_go hid runnerOk [.mk "a" "" []] fsAbsent Hashes.empty []
      = exec_go hid runnerOk [] fsAbsent
          ⟨Hashes.empty.file_hashes.update "a" "",
           Hashes.empty.command_hashes.update "a" (get_command_hash hid "")⟩
          [] :=
  ⟨rfl,
   c7_post_execution_refresh hid runnerOk (.mk "a" "" []) [] fsAbsent fsAbsent
     Hashes.empty [] (Or.inl ⟨rfl, rfl⟩) "" rfl⟩

/-- C8: absent-file digest.  A path that does not denote an existing file
is hashed as the digest of the empty byte sequence, a fixed deterministic
value rather than an error or a missing entry, so any two absent paths
receive equal content digests. -/
theorem c8_absent_file_digest (hash : String → Digest) (fs : FS) (p : String)
    (hp : fs p = .absent) :
    get_file_hash hash fs p = some (hash "")
    ∧ ∀ q, fs q = .absent → get_file_hash hash fs p = get_file_hash hash fs q := by
  constructor
  · rw [get_file_hash, hp]
  · intro q hq
    rw [get_file_hash, get_file_hash, hp, hq]

theorem c8_witness :
    fsAbsent "a" = FileView.absent
    ∧ get_file_hash hid fsAbsent "a" = some (hid "")
    ∧ ∀ q, fsAbsent q = FileView.absent →
        get_file_hash hid fsAbsent "a" = get_file_hash hid fsAbsent q :=
  ⟨rfl, c8_absent_file_digest hid fsAbsent "a" rfl⟩

/-- C10: partial in-memory mutation on failure.  When the popped prefix of
the deque executes cleanly and then one command fails, the returned state
holds exactly the unprocessed entries (the failed entry removed), the
store exactly as the successful prefix refreshed it — and unchanged at
every path no prefix element owns — while only the error keeps the
invocation from persisting anything. -/
theorem c10_partial_mutation (hash : String → Digest) (runner : Runner)
    (build_queue done : List BuildElement) (e : BuildElement)
    (rest : List BuildElement) (fs fs1 fs2 : FS) (H H1 : Hashes)
    (tr1 : List String)
    (hq : build_queue.reverse = done ++ e :: rest)
    (hdone : exec_go hash runner done fs H [] = ⟨[], fs1, H1, tr1, none⟩)
    (hcmd : e.build_command ≠ "")
    (hfail : (runner e.build_command fs1 = .launchError ∧ fs2 = fs1)
        ∨ runner e.build_command fs1 = .ran fs2 false) :
    execute_build_queue hash runner build_queue fs H
      = ⟨rest.reverse, fs2, H1, tr1 ++ [e.build_command],
          some (.commandFail e.build_command)⟩
    ∧ ∀ p0, (∀ x ∈ done, x.path ≠ p0) →
        H1.command_hashes p0 = H.command_hashes p0
        ∧ H1.file_hashes p0 = H.file_hashes p0 := by
  have hgo : exec_go hash runner build_queue.reverse fs H []
      = ⟨rest, fs2, H1, tr1 ++ [e.build_command],
          some (.commandFail e.build_command)⟩ := by
    rw [hq, exec_append_ok hash runner done (e :: rest) fs H [] fs1 H1 tr1 hdone]
    rcases hfail with ⟨hrun, hfs⟩ | hrun
    · subst hfs
      exact exec_go_cons_launch_fail hash runner e rest fs2 H1 tr1 hcmd hrun
    · exact exec_go_cons_exit_fail hash runner e rest fs1 fs2 H1 tr1 hcmd hrun
  constructor
  · rw [execute_build_queue, hgo]
  · intro p0 hp0
    have hfr := exec_frame hash runner done fs H [] p0 hp0
    rw [hdone] at hfr
    exact hfr

theorem c10_witness :
    (BuildElement.mk "o" "cc" []).build_command ≠ ""
    ∧ execute_build_queue hid runnerFail [.mk "o" "cc" []] fsAbsent Hashes.empty
      = ⟨[], fsAbsent, Hashes.empty, ["cc"], some (.commandFail "cc")⟩ :=
  ⟨by decide,
   (c10_partial_mutation hid runnerFail [.mk "o" "cc" []] [] (.mk "o" "cc" [])
     [] fsAbsent fsAbsent fsAbsent Hashes.empty Hashes.empty [] rfl rfl
     (by decide) (Or.inl ⟨rfl, rfl⟩)).1⟩

/-- C2: transactional baseline commit.  The only program point that writes
the database is reached when resolution succeeded and the executor
completed the queue with error field none (no CommandFailException, no
OSError); on every failing invocation — in particular whenever a command in
the queue fails — the persisted baseline after the invocation is exactly
the baseline before it. -/
theorem c2_transactional_commit (hash : String → Digest) (runner : Runner)
    (tree : BuildElement) (disk : DiskState)
    (h : (invoke hash runner tree disk).success = false) :
    (invoke hash runner tree disk).disk.db = disk.db := by
  rw [invoke] at h ⊢
  cases hubq : update_build_queue hash disk.fs tree (read_hashes_db disk.db)
      [] Hashes.empty with
  | none => rfl
  | some r =>
    obtain ⟨b, q, hashes_new⟩ := r
    rw [hubq] at h
    dsimp only at h ⊢
    cases herr : (execute_build_queue hash runner q disk.fs hashes_new).error with
    | some err => rfl
    | none =>
      rw [herr] at h
      dsimp only at h
      exact absurd h (by simp)

theorem c2_witness :
    (invoke hid runnerFail (.mk "out" "gcc" []) ⟨fsAbsent, none⟩).success = false
    ∧ (invoke hid runnerFail (.mk "out" "gcc" []) ⟨fsAbsent, none⟩).disk.db = none :=
  ⟨rfl, c2_transactional_commit hid runnerFail (.mk "out" "gcc" []) ⟨fsAbsent, none⟩ rfl⟩

/-- C4: staleness characterization.  A node's call returns flag true — and
then, and only then, pushes the node onto the queue left of what the
dependency pass produced — exactly when some direct dependency resolved
stale, or the baseline's command entry for the path differs from the
current command digest (a missing entry counts as differing), or the
baseline's file entry differs likewise from the current content digest. -/
theorem c4_staleness_characterization (hash : String → Digest) (fs : FS)
    (p c : String) (deps : List BuildElement) (hashes : Hashes)
    (q : List BuildElement) (hn : Hashes) (b : Bool)
    (q' : List BuildElement) (hn' : Hashes)
    (h : update_build_queue hash fs (.mk p c deps) hashes q hn = some (b, q', hn')) :
    ∃ dsb q1 hn1,
      update_deps hash fs deps hashes q hn = some (dsb, q1, hn1)
      ∧ q' = (if b then .mk p c deps :: q1 else q1)
      ∧ (b = true ↔ ((∃ d ∈ deps, stale hash fs d hashes = some true)
          ∨ hashes.command_hashes p ≠ some (get_command_hash hash c)
          ∨ hashes.file_hashes p ≠ get_file_hash hash fs p)) := by
  rw [ubq_unfold] at h
  cases hud : update_deps hash fs deps hashes q hn with
  | none => rw [hud] at h; exact Option.noConfusion h
  | some r =>
    obtain ⟨dsb, q1, hn1⟩ := r
    rw [hud] at h
    dsimp only at h
    cases hf : get_file_hash hash fs p with
    | none => rw [hf] at h; exact Option.noConfusion h
    | some current =>
      rw [hf] at h
      dsimp only at h
      have hdsb : dsb = true ↔ ∃ d ∈ deps, stale hash fs d hashes = some true := by
        have h1 := update_deps_fst hash fs deps hashes q hn
        rw [hud] at h1
        simp only [Option.map_some'] at h1
        exact staleList_true_iff hash fs deps hashes dsb h1.symm
      refine ⟨dsb, q1, hn1, rfl, ?_⟩
      split at h
      case isTrue hcond =>
        simp only [Option.some.injEq, Prod.mk.injEq] at h
        obtain ⟨hb, hq, hhn⟩ := h
        subst hb
        refine ⟨by rw [← hq, if_pos rfl], ?_⟩
        simp only [true_iff]
        simp only [Bool.or_eq_true, Bool.not_eq_true', beq_eq_false_iff_ne,
          ne_eq] at hcond
        rcases hcond with hf1 | hc1 | hd1
        · exact Or.inr (Or.inr hf1)
        · exact Or.inr (Or.inl hc1)
        · exact Or.inl (hdsb.mp hd1)
      case isFalse hcond =>
        simp only [Option.some.injEq, Prod.mk.injEq] at h
        obtain ⟨hb, hq, hhn⟩ := h
        subst hb
        refine ⟨by rw [← hq]; rfl, ?_⟩
        simp only [Bool.false_eq_true, false_iff]
        simp only [Bool.or_eq_true, Bool.not_eq_true', beq_eq_false_iff_ne,
          ne_eq, not_or, not_not] at hcond
        obtain ⟨hf1, hc1, hd1⟩ := hcond
        rintro (hdep | hcmd2 | hfile)
        · exact hd1 (hdsb.mpr hdep)
        · exact hcmd2 hc1
        · exact hfile hf1

theorem c4_witness :
    ∃ dsb q1 hn1,
      update_deps hid fsAbsent [] Hashes.empty [] Hashes.empty
        = some (dsb, q1, hn1)
      ∧ [BuildElement.mk "a" "touch" []]
          = (if true then BuildElement.mk "a" "touch" [] :: q1 else q1)
      ∧ (true = true ↔ ((∃ d ∈ ([] : List BuildElement),
            stale hid fsAbsent d Hashes.empty = some true)
          ∨ Hashes.empty.command_hashes "a" ≠ some (get_command_hash hid "touch")
          ∨ Hashes.empty.file_hashes "a" ≠ get_file_hash hid fsAbsent "a")) :=
  c4_staleness_characterization hid fsAbsent "a" "touch" [] Hashes.empty
    [] Hashes.empty true [BuildElement.mk "a" "touch" []]
    (record_node hid "a" "touch" (hid "") Hashes.empty) rfl

/-- C9: no deduplication by identity.  When one node value occurs in the
subtrees of two dependencies of a root, and it resolves stale, resolution
enqueues the two occurrences separately (the queue gains at least two
copies), and a successful execution of that queue runs the occurrence's
non-empty command at least twice. -/
theorem c9_no_dedup (hash : String → Digest) (runner : Runner) (fs : FS)
    (rp rc : String) (x y d : BuildElement) (hashes : Hashes)
    (q : List BuildElement) (hn : Hashes)
    (hdx : d ∈ nodes x) (hdy : d ∈ nodes y)
    (hstale : stale hash fs d hashes = some true)
    (bb : Bool) (q' : List BuildElement) (hn' : Hashes)
    (h : update_build_queue hash fs (.mk rp rc [x, y]) hashes q hn
      = some (bb, q', hn')) :
    q.count d + 2 ≤ q'.count d
    ∧ ∀ fs2 H2, d.build_command ≠ "" →
        (execute_build_queue hash runner q' fs2 H2).error = none →
        2 ≤ ((execute_build_queue hash runner q' fs2 H2).commands_run.count
              d.build_command) := by
  rw [ubq_unfold] at h
  cases hud : update_deps hash fs [x, y] hashes q hn with
  | none => rw [hud] at h; exact Option.noConfusion h
  | some r =>
    obtain ⟨dsb, q1, hn1⟩ := r
    rw [hud] at h
    dsimp only at h
    cases hf : get_file_hash hash fs rp with
    | none => rw [hf] at h; exact Option.noConfusion h
    | some current =>
      rw [hf] at h
      dsimp only at h
      rw [update_deps_cons] at hud
      cases hx : update_build_queue hash fs x hashes q hn with
      | none => rw [hx] at hud; exact Option.noConfusion hud
      | some rx =>
        obtain ⟨b1, qx, hnx⟩ := rx
        rw [hx] at hud
        dsimp only at hud
        rw [update_deps_cons] at hud
        cases hy : update_build_queue hash fs y hashes qx hnx with
        | none => rw [hy] at hud; exact Option.noConfusion hud
        | some ry =>
          obtain ⟨b2, qy, hny⟩ := ry
          rw [hy] at hud
          dsimp only at hud
          rw [update_deps_nil] at hud
          dsimp only at hud
          simp only [Option.some.injEq, Prod.mk.injEq] at hud
          obtain ⟨hdsb, hq1, hhn1⟩ := hud
          subst hq1
          obtain ⟨wx, hqx, -, hcompx⟩ :=
            ubq_queue hash fs x hashes q hn b1 qx hnx hx
          obtain ⟨wy, hqy, -, hcompy⟩ :=
            ubq_queue hash fs y hashes qx hnx b2 qy hny hy
          have hdwx : d ∈ wx := hcompx d hdx hstale
          have hdwy : d ∈ wy := hcompy d hdy hstale
          have hcx : 0 < wx.count d := List.count_pos_iff.mpr hdwx
          have hcy : 0 < wy.count d := List.count_pos_iff.mpr hdwy
          have hqyc : qy.count d = wy.count d + (wx.count d + q.count d) := by
            rw [hqy, hqx, List.count_append, List.count_append]
          have hcount : q.count d + 2 ≤ q'.count d := by
            split at h
            · simp only [Option.some.injEq, Prod.mk.injEq] at h
              obtain ⟨hb, hq, hhn⟩ := h
              rw [← hq, List.count_cons]
              have hz : (0 : Nat) ≤
                  if ((BuildElement.mk rp rc [x, y]) == d) = true then 1 else 0 :=
                Nat.zero_le _
              omega
            · simp only [Option.some.injEq, Prod.mk.injEq] at h
              obtain ⟨hb, hq, hhn⟩ := h
              rw [← hq]
              omega
          refine ⟨hcount, ?_⟩
          intro fs2 H2 hdcmd herr
          have htr := exec_trace hash runner q'.reverse fs2 H2 [] herr
          have hcr : (execute_build_queue hash runner q' fs2 H2).commands_run
              = (exec_go hash runner q'.reverse fs2 H2 []).commands_run := rfl
          rw [hcr, htr, List.nil_append]
          have hP : (fun e : BuildElement => !(e.build_command == "")) d = true := by
            simp [hdcmd]
          have s1 : q'.count d = q'.reverse.count d :=
            (List.count_reverse d q').symm
          have s2 : (q'.reverse.filter
                (fun e : BuildElement => !(e.build_command == ""))).count d
              = q'.reverse.count d :=
            List.count_filter hP
          have s3 := count_le_count_map
            (q'.reverse.filter (fun e : BuildElement => !(e.build_command == "")))
            (fun e => e.build_command) d
          omega

theorem c9_witness :
    (BuildElement.mk "h" "gen" [] : BuildElement) ∈ nodes (.mk "x" "cx" [.mk "h" "gen" []])
    ∧ stale hid fsAbsent (.mk "h" "gen" []) Hashes.empty = some true
    ∧ ([] : List BuildElement).count (.mk "h" "gen" []) + 2
        ≤ (([.mk "p" "root" [.mk "x" "cx" [.mk "h" "gen" []],
              .mk "y" "cy" [.mk "h" "gen" []]],
            .mk "y" "cy" [.mk "h" "gen" []], .mk "h" "gen" [],
            .mk "x" "cx" [.mk "h" "gen" []], .mk "h" "gen" []] :
              List BuildElement).count (.mk "h" "gen" [])) :=
  ⟨by decide, rfl,
   (c9_no_dedup hid runnerOk fsAbsent "p" "root"
     (.mk "x" "cx" [.mk "h" "gen" []]) (.mk "y" "cy" [.mk "h" "gen" []])
     (.mk "h" "gen" []) Hashes.empty [] Hashes.empty
     (by decide) (by decide) rfl _ _ _ rfl).1⟩

/-- The duplicate-identity tree refuting C1 as stated: one identity "p"
occurs twice with different commands. -/
def dupTree : BuildElement := .mk "p" "c1" [.mk "p" "c2" []]

/-- C1 counterexample: with the same identity carrying two different
commands in one tree, a fully successful invocation (every command runs
and succeeds, touching nothing) is followed by a second invocation over
the same tree and unchanged file contents whose queue is non-empty and
which runs commands again. -/
theorem c1_counterexample :
    (invoke hid runnerOk dupTree ⟨fsAbsent, none⟩).success = true
    ∧ (invoke hid runnerOk dupTree
        (invoke hid runnerOk dupTree ⟨fsAbsent, none⟩).disk).queue ≠ []
    ∧ (invoke hid runnerOk dupTree
        (invoke hid runnerOk dupTree ⟨fsAbsent, none⟩).disk).commands_run ≠ [] :=
  ⟨rfl, by decide, by decide⟩

/-- C1 (amended): idempotence of a full invocation, for trees in which any
two nodes sharing an identity carry the same command string, and runners
whose successful commands modify no file other than the executed node's
own — the precise reading of "unchanged file contents".  After an
invocation that resolves, executes the whole queue successfully and
persists the store, an immediate second invocation over the same tree
produces an empty queue and runs zero commands. -/
theorem c1_idempotence_amended (hash : String → Digest) (runner : Runner)
    (tree : BuildElement) (disk : DiskState)
    (hdup : ∀ n ∈ nodes tree, ∀ m ∈ nodes tree,
      n.path = m.path → n.build_command = m.build_command)
    (hloc : ∀ n ∈ nodes tree, ∀ fs fs',
      runner n.build_command fs = .ran fs' true →
      ∀ p0, p0 ≠ n.path → fs' p0 = fs p0)
    (h1 : (invoke hash runner tree disk).success = true) :
    (invoke hash runner tree (invoke hash runner tree disk).disk).queue = []
    ∧ (invoke hash runner tree
        (invoke hash runner tree disk).disk).commands_run = [] := by
  rw [invoke] at h1
  dsimp only at h1
  cases hubq : update_build_queue hash disk.fs tree (read_hashes_db disk.db)
      [] Hashes.empty with
  | none =>
    rw [hubq] at h1
    dsimp only at h1
    exact Bool.noConfusion h1
  | some r =>
    obtain ⟨b, Q, HN⟩ := r
    rw [hubq] at h1
    dsimp only at h1
    cases herr : (execute_build_queue hash runner Q disk.fs HN).error with
    | some err =>
      rw [herr] at h1
      dsimp only at h1
      exact Bool.noConfusion h1
    | none =>
      have hinv1 : invoke hash runner tree disk
          = ⟨true, Q,
              ⟨(execute_build_queue hash runner Q disk.fs HN).fs,
               some (execute_build_queue hash runner Q disk.fs HN).hashes⟩,
              (execute_build_queue hash runner Q disk.fs HN).commands_run⟩ := by
        rw [invoke]
        dsimp only
        rw [hubq]
        dsimp only
        rw [herr]
      rw [hinv1]
      obtain ⟨-, hpos⟩ := ubq_snap hash disk.fs tree (read_hashes_db disk.db)
        [] Hashes.empty b Q HN hubq
      have hconsHN : Consistent hash disk.fs HN (nodes tree) := by
        intro n hnmem
        obtain ⟨hcf, hff, hs⟩ := hpos n hnmem
        obtain ⟨m, hm, hmp, hme⟩ := hcf
        refine ⟨?_, hff, hs⟩
        rw [hme, hdup m hm n hnmem hmp]
      obtain ⟨w, hw, hmemw, -⟩ := ubq_queue hash disk.fs tree
        (read_hashes_db disk.db) [] Hashes.empty b Q HN hubq
      have hQmem : ∀ z ∈ Q, z ∈ nodes tree := by
        intro z hz
        rw [hw, List.append_nil] at hz
        exact hmemw z hz
      have herr' : (exec_go hash runner Q.reverse disk.fs HN []).error = none :=
        herr
      have hcons2 :
          Consistent hash (exec_go hash runner Q.reverse disk.fs HN []).fs
            (exec_go hash runner Q.reverse disk.fs HN []).hashes (nodes tree) :=
        exec_consistency hash runner (nodes tree) hdup hloc Q.reverse disk.fs HN
          [] (fun z hz => hQmem z (List.mem_reverse.mp hz)) hconsHN herr'
      obtain ⟨hn2, hfresh⟩ := ubq_fresh hash
        (exec_go hash runner Q.reverse disk.fs HN []).fs tree
        (exec_go hash runner Q.reverse disk.fs HN []).hashes [] Hashes.empty
        hcons2
      rw [invoke]
      dsimp only
      have hfs_eq : (execute_build_queue hash runner Q disk.fs HN).fs
          = (exec_go hash runner Q.reverse disk.fs HN []).fs := rfl
      have hh_eq : (execute_build_queue hash runner Q disk.fs HN).hashes
          = (exec_go hash runner Q.reverse disk.fs HN []).hashes := rfl
      rw [read_hashes_db_some, hfs_eq, hh_eq, hfresh]
      dsimp only
      rw [execute_build_queue_nil]
      exact ⟨rfl, rfl⟩

theorem c1_witness :
    (invoke hid runnerOk (.mk "b" "link" [.mk "a" "" []])
      ⟨fsAbsent, none⟩).success = true
    ∧ (invoke hid runnerOk (.mk "b" "link" [.mk "a" "" []])
        (invoke hid runnerOk (.mk "b" "link" [.mk "a" "" []])
          ⟨fsAbsent, none⟩).disk).queue = []
    ∧ (invoke hid runnerOk (.mk "b" "link" [.mk "a" "" []])
        (invoke hid runnerOk (.mk "b" "link" [.mk "a" "" []])
          ⟨fsAbsent, none⟩).disk).commands_run = [] :=
  ⟨rfl,
   c1_idempotence_amended hid runnerOk (.mk "b" "link" [.mk "a" "" []])
     ⟨fsAbsent, none⟩ (by decide)
     (fun n _ fs fs' hr p0 _ => by cases hr; rfl) rfl⟩

end SaltCBuild
